import Mathlib

/-!
Verification of the ndarray-utils array-transformation library.

The source consists of three modules:
* `rank.rs` — ranking with tie-breaking (`rank`) and equal-count bucketing
  (`discretize`);
* `floats.rs` — counting and replacing non-finite values;
* `pairwise.rs` — elementwise minimum/maximum against another array.

Containers are modelled as lists in canonical (row-major) enumeration order;
floating-point scalars are modelled by `FloatV`, which distinguishes NaN
(non-comparable), the two infinities (comparable, non-finite) and finite
values with an integer payload.  Operations that can hit an arithmetic fault
in the source (division or remainder by zero) return `Option`, with `none`
standing for the fault.
-/

namespace NdUtils

/-- Model of a floating-point scalar: NaN is incomparable with everything,
the infinities compare below/above every finite value, and finite values
carry an integer payload ordered as usual. -/
inductive FloatV : Type where
  | nan : FloatV
  | negInf : FloatV
  | posInf : FloatV
  | fin : Int → FloatV
deriving DecidableEq

/-- Model of `PartialOrd::partial_cmp` for floats: `none` exactly when either
side is NaN. -/
def pcmp : FloatV → FloatV → Option Ordering
  | .nan, _ => none
  | _, .nan => none
  | .negInf, .negInf => some .eq
  | .negInf, .posInf => some .lt
  | .negInf, .fin _ => some .lt
  | .posInf, .negInf => some .gt
  | .posInf, .posInf => some .eq
  | .posInf, .fin _ => some .gt
  | .fin _, .negInf => some .gt
  | .fin _, .posInf => some .lt
  | .fin a, .fin b => if a < b then some .lt else if a = b then some .eq else some .gt

/-- Model of `PartialOrd::lt`: the comparison is defined and yields `Less`. -/
def flt (a b : FloatV) : Bool := decide (pcmp a b = some .lt)

/-- Model of `PartialOrd::gt`: the comparison is defined and yields `Greater`. -/
def fgt (a b : FloatV) : Bool := decide (pcmp a b = some .gt)

/-- Model of `PartialEq::eq` for floats: the comparison is defined and yields
`Equal`. -/
def feq (a b : FloatV) : Bool := decide (pcmp a b = some .eq)

/-- The ascending-order predicate used by the sort on comparable elements:
true when the comparison yields `Less` or `Equal`.  The source calls
`partial_cmp(..).unwrap()`, which would abort on an undefined comparison;
here an undefined comparison yields `false`, and the C10 theorem shows that
this branch is unreachable for the pairs the sort actually compares. -/
def fle (a b : FloatV) : Bool :=
  match pcmp a b with
  | some .lt => true
  | some .eq => true
  | _ => false

/-- Model of `A::default()` for floats: `0.0`. -/
def defaultF : FloatV := .fin 0

/-- Tie-breaking method of `rank.rs`. -/
inductive RankMethod : Type where
  | Minimum : RankMethod
  | Maximum : RankMethod
  | Average : RankMethod
deriving DecidableEq

/-- The comparable `(index, element)` pairs of `rank`: the source skips any
element whose comparison against `A::default()` is undefined and keeps the
rest, in enumeration order. -/
def comparables (xs : List FloatV) : List (Nat × FloatV) :=
  xs.enum.filter (fun p => !(pcmp p.2 defaultF == none))

/-- Insert a pair into a list sorted ascending by value. -/
def orderedInsertP (p : Nat × FloatV) : List (Nat × FloatV) → List (Nat × FloatV)
  | [] => [p]
  | q :: l => if fle p.2 q.2 then p :: q :: l else q :: orderedInsertP p l

/-- Model of `sort_unstable_by` with the ascending value comparator: a
comparison sort producing a list sorted by `fle` on values.  (Which sorted
arrangement of equal values is produced is unobservable; the C8 theorem
proves the output of `rank` is the same for every sorted arrangement.) -/
def sortPairs : List (Nat × FloatV) → List (Nat × FloatV)
  | [] => []
  | p :: l => orderedInsertP p (sortPairs l)

/-- The rank-assignment loop of `rank`: walk the sorted pairs, split off each
maximal run of equal values (size `g`, starting at running rank `rank`),
assign every member of the run the method's rank, and advance the counter by
`g`.  `fuel` bounds the recursion and is always called with at least the
list length, so the `0` case is unreachable. -/
def assignRanksAux (method : RankMethod) : Nat → Nat → List (Nat × FloatV) → List (Nat × Nat)
  | _, _, [] => []
  | 0, _, _ :: _ => []
  | fuel + 1, rank, (i, v) :: rest =>
    let run := rest.takeWhile (fun p => feq p.2 v)
    let tail := rest.dropWhile (fun p => feq p.2 v)
    let g := run.length + 1
    let assign :=
      match method with
      | .Minimum => rank
      | .Maximum => rank + g - 1
      | .Average => rank + (g - 1) / 2
    ((i, v) :: run).map (fun p => (p.1, assign)) ++ assignRanksAux method fuel (rank + g) tail

/-- Rank assignment over a sorted pair list, starting the rank counter at
`rank`. -/
def assignRanks (method : RankMethod) (rank : Nat) (l : List (Nat × FloatV)) : List (Nat × Nat) :=
  assignRanksAux method l.length rank l

/-- Write the assigned `(index, rank)` pairs into a zero-initialised output
of length `n`: position `j` holds the rank assigned to index `j`, or the
sentinel `0` when no rank was assigned there. -/
def writeBack (assigned : List (Nat × Nat)) (n : Nat) : List Nat :=
  (List.range n).map (fun j => (((assigned.find? (fun p => p.1 == j))).map Prod.snd).getD 0)

/-- Model of `rank` from `rank.rs`: filter the comparable pairs, sort them by
value ascending, assign ranks per tie-group starting at 1, and write the
ranks back at the original indices over a zero-initialised output. -/
def rank (xs : List FloatV) (method : RankMethod) : List Nat :=
  writeBack (assignRanks method 1 (sortPairs (comparables xs))) xs.length

/-- Model of `iter().reduce(|a, b| if *a > *b { a } else { b })`: `none` on
an empty list, otherwise the running maximum. -/
def reduceMax : List Nat → Option Nat
  | [] => none
  | x :: l => some (l.foldl (fun a b => if a > b then a else b) x)

/-- The first cut-point loop of `discretize` (the `remainder` iterations):
each bucket spans `ranksPerBucket + 1` ranks, so `low` advances by
`ranksPerBucket + 1`.  Returns the cut points and the final `low`. -/
def loopRem (rpb : Nat) : Nat → Nat → List Nat × Nat
  | low, 0 => ([], low)
  | low, k + 1 =>
    let r := loopRem rpb (low + rpb + 1) k
    (low :: r.1, r.2)

/-- The second cut-point loop of `discretize`: each bucket spans
`ranksPerBucket` ranks (`high = low + ranksPerBucket - 1`, next
`low = high + 1`). -/
def loopRest (rpb : Nat) : Nat → Nat → List Nat × Nat
  | low, 0 => ([], low)
  | low, k + 1 =>
    let r := loopRest rpb (low + rpb - 1 + 1) k
    (low :: r.1, r.2)

/-- The bucket of a non-sentinel rank `x`: the loop in `discretize` counts
cut points while `x >= cut` and breaks at the first larger cut point. -/
def bucketOf (cuts : List Nat) (x : Nat) : Nat :=
  (cuts.takeWhile (fun cut => decide (cut ≤ x))).length

/-- The bucket-boundary computation of `discretize`, given `maxRank` and the
requested bucket count: the effective bucket count, the ranks-per-bucket
width, and the cut points.  `none` models the two arithmetic faults of the
source: `maxRank / buckets` with `buckets = 0`, and `maxRank % buckets`
after the edge case has replaced `buckets` by a zero `maxRank`. -/
def bucketPlan (maxRank buckets : Nat) : Option (Nat × Nat × List Nat) :=
  if buckets = 0 then none
  else
    let rpb0 := maxRank / buckets
    let be := if rpb0 = 0 then maxRank else buckets
    let rpb := if rpb0 = 0 then 1 else rpb0
    if be = 0 then none
    else
      let remainder := maxRank % be
      let s1 := loopRem rpb 1 remainder
      let s2 := loopRest rpb s1.2 (be - remainder)
      some (be, rpb, s1.1 ++ s2.1)

/-- Model of `discretize` from `rank.rs`: rank the container; if the rank
array is empty return it unchanged, otherwise build the cut points from the
maximum rank and map every non-sentinel rank to the count of cut points at
or below it.  `none` models an arithmetic fault in the source. -/
def discretize? (xs : List FloatV) (method : RankMethod) (buckets : Nat) : Option (List Nat) :=
  let ranks := rank xs method
  match reduceMax ranks with
  | none => some ranks
  | some maxRank =>
    match bucketPlan maxRank buckets with
    | none => none
    | some (_, _, cuts) =>
      some (ranks.map (fun x => if x = 0 then 0 else bucketOf cuts x))

/-- Modelled from the spec: the C2 sentence of §4.3 says the remainder is
`max_rank mod buckets` "using the *original* requested bucket count before
the edge-case reduction".  This variant differs from `bucketPlan` (the
source's computation) only in that one line. -/
def bucketPlanSpecC2 (maxRank buckets : Nat) : Option (Nat × Nat × List Nat) :=
  if buckets = 0 then none
  else
    let rpb0 := maxRank / buckets
    let be := if rpb0 = 0 then maxRank else buckets
    let rpb := if rpb0 = 0 then 1 else rpb0
    if be = 0 then none
    else
      let remainder := maxRank % buckets
      let s1 := loopRem rpb 1 remainder
      let s2 := loopRest rpb s1.2 (be - remainder)
      some (be, rpb, s1.1 ++ s2.1)

/-- Modelled from the spec: `discretize` with the C2 sentence's remainder
computation substituted for the source's. -/
def discretizeSpecC2? (xs : List FloatV) (method : RankMethod) (buckets : Nat) :
    Option (List Nat) :=
  let ranks := rank xs method
  match reduceMax ranks with
  | none => some ranks
  | some maxRank =>
    match bucketPlanSpecC2 maxRank buckets with
    | none => none
    | some (_, _, cuts) =>
      some (ranks.map (fun x => if x = 0 then 0 else bucketOf cuts x))

/-- Model of `Float::is_finite`. -/
def isFinite : FloatV → Bool
  | .fin _ => true
  | _ => false

/-- Model of `fill_non_finite_inplace` from `floats.rs`. -/
def fillNonFinite (xs : List FloatV) (w : FloatV) : List FloatV :=
  xs.map (fun x => if !(isFinite x) then w else x)

/-- Model of `count_finite` from `floats.rs`. -/
def countFinite (xs : List FloatV) : Nat :=
  xs.foldl (fun a b => a + if isFinite b then 1 else 0) 0

/-- Model of `count_non_finite` from `floats.rs`. -/
def countNonFinite (xs : List FloatV) : Nat :=
  xs.foldl (fun a b => a + if !(isFinite b) then 1 else 0) 0

/-- Model of `maximum_with_inplace` from `pairwise.rs`: at each position,
replace `x` by the other array's `o` exactly when `x < o`. -/
def maximumWithInplace (a b : List FloatV) : List FloatV :=
  List.zipWith (fun x o => if flt x o then o else x) a b

/-- Model of `minimum_with_inplace` from `pairwise.rs`: at each position,
replace `x` by the other array's `o` exactly when `x > o`. -/
def minimumWithInplace (a b : List FloatV) : List FloatV :=
  List.zipWith (fun x o => if fgt x o then o else x) a b

example : rank [.fin 4, .fin 2, .fin 2, .fin 1] .Minimum = [4, 2, 2, 1] := by decide
example : rank [.fin 4, .fin 2, .fin 2, .fin 1] .Maximum = [4, 3, 3, 1] := by decide
example : rank [.fin 4, .fin 2, .fin 2, .fin 1] .Average = [4, 2, 2, 1] := by decide
example : rank [.fin 4, .fin 1, .fin 1, .fin 1] .Average = [4, 2, 2, 2] := by decide
example : rank [.fin 4, .fin 3, .nan, .fin 1] .Minimum = [3, 2, 0, 1] := by decide
example : discretize? [.fin 6, .fin 5, .fin 4, .fin 3, .fin 2, .fin 1] .Minimum 3 =
    some [3, 3, 2, 2, 1, 1] := by decide
example : discretize? [.fin 6, .fin 5, .nan, .fin 3, .nan, .fin 1] .Minimum 2 =
    some [2, 2, 0, 1, 0, 1] := by decide
example : discretize? [.nan] .Minimum 1 = none := by decide
example : discretize? [.fin 1, .fin 2] .Minimum 3 = some [1, 2] := by decide
example : discretizeSpecC2? [.fin 1, .fin 2] .Minimum 3 = some [1, 1] := by decide
example : discretize? [.fin 5, .fin 5, .fin 7] .Minimum 3 = some [1, 1, 3] := by decide

/-! ### Order theory of the modelled float comparison -/

theorem pcmp_default_none_iff (v : FloatV) : pcmp v defaultF = none ↔ v = .nan := by
  cases v <;> simp only [pcmp, defaultF] <;> (try split_ifs) <;> simp_all

theorem pcmp_isSome_iff (a b : FloatV) :
    (pcmp a b).isSome = true ↔ (a ≠ .nan ∧ b ≠ .nan) := by
  cases a <;> cases b <;> simp only [pcmp] <;> (try split_ifs) <;> simp_all

theorem flt_irrefl (a : FloatV) : flt a a = false := by
  cases a <;> simp only [flt, pcmp] <;> (try split_ifs) <;> simp_all

theorem feq_refl (a : FloatV) (h : a ≠ .nan) : feq a a = true := by
  cases a <;> simp only [feq, pcmp] at * <;> (try split_ifs) <;> simp_all

theorem feq_symm {a b : FloatV} (h : feq a b = true) : feq b a = true := by
  cases a <;> cases b <;> simp only [feq, pcmp] at * <;>
    (try split_ifs at * <;> try subst_vars) <;> simp_all <;> omega

theorem feq_trans {a b c : FloatV} (h₁ : feq a b = true) (h₂ : feq b c = true) :
    feq a c = true := by
  cases a <;> cases b <;> cases c <;> simp only [feq, pcmp] at * <;>
    (try split_ifs at * <;> try subst_vars) <;> simp_all <;> omega

theorem flt_asymm {a b : FloatV} (h : flt a b = true) : flt b a = false := by
  cases a <;> cases b <;> simp only [flt, pcmp] at * <;>
    (try split_ifs at * <;> try subst_vars) <;> simp_all <;> omega

theorem flt_trans {a b c : FloatV} (h₁ : flt a b = true) (h₂ : flt b c = true) :
    flt a c = true := by
  cases a <;> cases b <;> cases c <;> simp only [flt, pcmp] at * <;>
    (try split_ifs at * <;> try subst_vars) <;> simp_all <;> omega

theorem flt_of_feq_of_flt {a b c : FloatV} (h₁ : feq a b = true) (h₂ : flt b c = true) :
    flt a c = true := by
  cases a <;> cases b <;> cases c <;> simp only [flt, feq, pcmp] at * <;>
    (try split_ifs at * <;> try subst_vars) <;> simp_all <;> omega

theorem flt_of_flt_of_feq {a b c : FloatV} (h₁ : flt a b = true) (h₂ : feq b c = true) :
    flt a c = true := by
  cases a <;> cases b <;> cases c <;> simp only [flt, feq, pcmp] at * <;>
    (try split_ifs at * <;> try subst_vars) <;> simp_all <;> omega

theorem fle_iff (a b : FloatV) : fle a b = true ↔ (flt a b = true ∨ feq a b = true) := by
  cases a <;> cases b <;> simp only [fle, flt, feq, pcmp] <;> (try split_ifs) <;> simp_all

theorem fle_total {a b : FloatV} (ha : a ≠ .nan) (hb : b ≠ .nan) :
    fle a b = true ∨ fle b a = true := by
  cases a <;> cases b <;> simp only [fle, pcmp] at * <;>
    (try split_ifs at * <;> try subst_vars) <;> simp_all <;> omega

theorem flt_of_flt_of_fle {a b c : FloatV} (h₁ : flt a b = true) (h₂ : fle b c = true) :
    flt a c = true := by
  rcases (fle_iff b c).mp h₂ with h | h
  · exact flt_trans h₁ h
  · exact flt_of_flt_of_feq h₁ h

theorem fle_trans {a b c : FloatV} (h₁ : fle a b = true) (h₂ : fle b c = true) :
    fle a c = true := by
  rcases (fle_iff a b).mp h₁ with h | h
  · exact (fle_iff a c).mpr (Or.inl (flt_of_flt_of_fle h h₂))
  · rcases (fle_iff b c).mp h₂ with h' | h'
    · exact (fle_iff a c).mpr (Or.inl (flt_of_feq_of_flt h h'))
    · exact (fle_iff a c).mpr (Or.inr (feq_trans h h'))

theorem not_feq_of_flt {a b : FloatV} (h : flt a b = true) : feq a b = false := by
  cases a <;> cases b <;> simp only [flt, feq, pcmp] at * <;>
    (try split_ifs at * <;> try subst_vars) <;> simp_all

theorem not_nan_of_flt {a b : FloatV} (h : flt a b = true) : a ≠ .nan ∧ b ≠ .nan := by
  cases a <;> cases b <;> simp_all [flt, pcmp]

theorem not_nan_of_feq {a b : FloatV} (h : feq a b = true) : a ≠ .nan ∧ b ≠ .nan := by
  cases a <;> cases b <;> simp_all [feq, pcmp]

theorem not_nan_of_fle {a b : FloatV} (h : fle a b = true) : a ≠ .nan ∧ b ≠ .nan := by
  rcases (fle_iff a b).mp h with h | h
  · exact not_nan_of_flt h
  · exact not_nan_of_feq h

theorem flt_of_fle_of_not_feq {a b : FloatV} (h₁ : fle a b = true) (h₂ : feq a b = false) :
    flt a b = true := by
  rcases (fle_iff a b).mp h₁ with h | h
  · exact h
  · rw [h] at h₂; cases h₂

theorem flt_congr_right {a b c : FloatV} (h : feq b c = true) : flt a b = flt a c := by
  cases a <;> cases b <;> cases c <;> simp only [flt, feq, pcmp] at * <;>
    (try split_ifs at * <;> try subst_vars) <;> simp_all <;> omega

theorem feq_congr_right {a b c : FloatV} (h : feq b c = true) : feq a b = feq a c := by
  cases a <;> cases b <;> cases c <;> simp only [feq, pcmp] at * <;>
    (try split_ifs at * <;> try subst_vars) <;> simp_all <;> omega

/-! ### The sort: a sorted permutation of the comparable pairs -/

/-- Ascending order on pairs, by value. -/
@[reducible]
def fleP (p q : Nat × FloatV) : Prop := fle p.2 q.2 = true

theorem orderedInsertP_perm (p : Nat × FloatV) (l : List (Nat × FloatV)) :
    List.Perm (orderedInsertP p l) (p :: l) := by
  induction l with
  | nil => exact List.Perm.refl _
  | cons q l ih =>
    simp only [orderedInsertP]
    split
    · exact List.Perm.refl _
    · exact (ih.cons q).trans (List.Perm.swap p q l)

theorem sortPairs_perm (l : List (Nat × FloatV)) : List.Perm (sortPairs l) l := by
  induction l with
  | nil => exact List.Perm.refl _
  | cons p l ih => exact (orderedInsertP_perm p (sortPairs l)).trans (ih.cons p)

theorem mem_orderedInsertP {q p : Nat × FloatV} {l : List (Nat × FloatV)} :
    q ∈ orderedInsertP p l ↔ q = p ∨ q ∈ l := by
  rw [(orderedInsertP_perm p l).mem_iff, List.mem_cons]

theorem pairwise_orderedInsertP {p : Nat × FloatV} {l : List (Nat × FloatV)}
    (hp : p.2 ≠ .nan) (hl : ∀ q ∈ l, q.2 ≠ .nan) (h : l.Pairwise fleP) :
    (orderedInsertP p l).Pairwise fleP := by
  induction l with
  | nil => simp [orderedInsertP]
  | cons q l ih =>
    rw [List.pairwise_cons] at h
    simp only [orderedInsertP]
    split
    case isTrue hle =>
      rw [List.pairwise_cons]
      refine ⟨?_, List.pairwise_cons.mpr h⟩
      intro r hr
      rcases List.mem_cons.mp hr with rfl | hr
      · exact hle
      · exact fle_trans hle (h.1 r hr)
    case isFalse hnle =>
      have hq : q.2 ≠ .nan := hl q (List.mem_cons_self q l)
      have hqp : fle q.2 p.2 = true := by
        rcases fle_total hp hq with h' | h'
        · exact absurd h' hnle
        · exact h'
      rw [List.pairwise_cons]
      refine ⟨?_, ih (fun r hr => hl r (List.mem_cons_of_mem q hr)) h.2⟩
      intro r hr
      rcases mem_orderedInsertP.mp hr with rfl | hr
      · exact hqp
      · exact h.1 r hr

theorem sortPairs_pairwise {l : List (Nat × FloatV)} (hl : ∀ q ∈ l, q.2 ≠ .nan) :
    (sortPairs l).Pairwise fleP := by
  induction l with
  | nil => simp [sortPairs]
  | cons p l ih =>
    have hmem : ∀ q ∈ sortPairs l, q.2 ≠ .nan := fun q hq =>
      hl q (List.mem_cons_of_mem p ((sortPairs_perm l).mem_iff.mp hq))
    exact pairwise_orderedInsertP (hl p (List.mem_cons_self p l)) hmem
      (ih (fun q hq => hl q (List.mem_cons_of_mem p hq)))

/-! ### The comparable pairs -/

theorem mem_comparables {xs : List FloatV} {p : Nat × FloatV} :
    p ∈ comparables xs ↔ p ∈ xs.enum ∧ p.2 ≠ .nan := by
  rw [comparables, List.mem_filter]
  simp only [Bool.not_eq_eq_eq_not, Bool.not_true]
  constructor
  · rintro ⟨h1, h2⟩
    refine ⟨h1, fun hn => ?_⟩
    rw [(pcmp_default_none_iff p.2).mpr hn] at h2
    simp at h2
  · rintro ⟨h1, h2⟩
    refine ⟨h1, ?_⟩
    cases hc : pcmp p.2 defaultF with
    | none => exact absurd ((pcmp_default_none_iff p.2).mp hc) h2
    | some o => simp [hc]

theorem comparables_nonnan {xs : List FloatV} : ∀ p ∈ comparables xs, p.2 ≠ .nan :=
  fun p hp => (mem_comparables.mp hp).2

theorem comparables_keys_nodup (xs : List FloatV) :
    ((comparables xs).map Prod.fst).Nodup := by
  have h : List.Sublist ((comparables xs).map Prod.fst) (xs.enum.map Prod.fst) :=
    (List.filter_sublist _).map _
  rw [List.enum_map_fst] at h
  exact h.nodup (List.nodup_range _)

/-! ### Association-list lookups with distinct keys -/

theorem eq_of_mem_of_nodup_keys {α β : Type} {l : List (α × β)}
    (hnd : (l.map Prod.fst).Nodup) {p q : α × β} (hp : p ∈ l) (hq : q ∈ l)
    (h : p.1 = q.1) : p = q := by
  induction l with
  | nil => cases hp
  | cons r l ih =>
    rw [List.map_cons, List.nodup_cons] at hnd
    rcases List.mem_cons.mp hp with hpr | hpl
    · rcases List.mem_cons.mp hq with hqr | hql
      · rw [hpr, hqr]
      · exfalso
        apply hnd.1
        rw [← hpr, h]
        exact List.mem_map_of_mem Prod.fst hql
    · rcases List.mem_cons.mp hq with hqr | hql
      · exfalso
        apply hnd.1
        rw [← hqr, ← h]
        exact List.mem_map_of_mem Prod.fst hpl
      · exact ih hnd.2 hpl hql

theorem find?_perm_of_nodup_keys {α β : Type} [DecidableEq α] {l₁ l₂ : List (α × β)}
    (hperm : List.Perm l₁ l₂) (hnd : (l₁.map Prod.fst).Nodup) (j : α) :
    l₁.find? (fun p => p.1 == j) = l₂.find? (fun p => p.1 == j) := by
  cases h₁ : l₁.find? (fun p => p.1 == j) with
  | none =>
    symm
    rw [List.find?_eq_none] at h₁ ⊢
    exact fun x hx => h₁ x (hperm.mem_iff.mpr hx)
  | some p =>
    have hpj : p.1 = j := by simpa using List.find?_some h₁
    have hpmem : p ∈ l₁ := List.mem_of_find?_eq_some h₁
    cases h₂ : l₂.find? (fun p => p.1 == j) with
    | none =>
      rw [List.find?_eq_none] at h₂
      exact absurd (by simpa using hpj) (h₂ p (hperm.mem_iff.mp hpmem))
    | some q =>
      have hqj : q.1 = j := by simpa using List.find?_some h₂
      have hqmem : q ∈ l₁ := hperm.mem_iff.mpr (List.mem_of_find?_eq_some h₂)
      rw [eq_of_mem_of_nodup_keys hnd hpmem hqmem (hpj.trans hqj.symm)]

/-! ### Closed form of the rank assignment -/

/-- Number of pairs whose value is strictly below `v`. -/
def cntLt (l : List (Nat × FloatV)) (v : FloatV) : Nat := l.countP (fun p => flt p.2 v)

/-- Number of pairs whose value ties with `v`. -/
def cntEq (l : List (Nat × FloatV)) (v : FloatV) : Nat := l.countP (fun p => feq p.2 v)

/-- The rank each method assigns to value `v` when the counter is based at
`k`: the tie-group of `v` starts at `k + cntLt l v` and has size
`cntEq l v`. -/
def rankAssign (l : List (Nat × FloatV)) (method : RankMethod) (k : Nat) (v : FloatV) : Nat :=
  match method with
  | .Minimum => k + cntLt l v
  | .Maximum => k + cntLt l v + (cntEq l v - 1)
  | .Average => k + cntLt l v + (cntEq l v - 1) / 2

theorem not_feq_symm_of_flt {a b : FloatV} (h : flt a b = true) : feq b a = false := by
  cases hc : feq b a
  · rfl
  · exact absurd (feq_symm hc) (by simp [not_feq_of_flt h])

theorem cntLt_congr {l : List (Nat × FloatV)} {w v : FloatV} (h : feq w v = true) :
    cntLt l w = cntLt l v := by
  unfold cntLt
  apply List.countP_congr
  intro p _
  rw [flt_congr_right h]

theorem cntEq_congr {l : List (Nat × FloatV)} {w v : FloatV} (h : feq w v = true) :
    cntEq l w = cntEq l v := by
  unfold cntEq
  apply List.countP_congr
  intro p _
  rw [feq_congr_right h]

theorem counts_head_group {i : Nat} {v : FloatV} {run tail : List (Nat × FloatV)}
    (hv : v ≠ .nan) (hrun : ∀ p ∈ run, feq p.2 v = true)
    (htail : ∀ p ∈ tail, flt v p.2 = true) :
    cntLt ((i, v) :: (run ++ tail)) v = 0 ∧
      cntEq ((i, v) :: (run ++ tail)) v = run.length + 1 := by
  constructor
  · rw [cntLt, List.countP_eq_zero]
    intro p hp
    rcases List.mem_cons.mp hp with rfl | hp'
    · simp [flt_irrefl]
    · rcases List.mem_append.mp hp' with hr | ht
      · have h1 : flt p.2 v = flt p.2 p.2 := flt_congr_right (feq_symm (hrun p hr))
        simp [h1, flt_irrefl]
      · simp [flt_asymm (htail p ht)]
  · rw [cntEq, List.countP_cons_of_pos _ _ (by simpa using feq_refl v hv),
      List.countP_append]
    have hr : run.countP (fun p => feq p.2 v) = run.length :=
      List.countP_eq_length.mpr (fun p hp => by simpa using hrun p hp)
    have ht : tail.countP (fun p => feq p.2 v) = 0 :=
      List.countP_eq_zero.mpr (fun p hp => by simp [not_feq_symm_of_flt (htail p hp)])
    omega

theorem counts_tail {i : Nat} {v w : FloatV} {run tail : List (Nat × FloatV)}
    (hrun : ∀ p ∈ run, feq p.2 v = true) (hw : flt v w = true) :
    cntLt ((i, v) :: (run ++ tail)) w = (run.length + 1) + cntLt tail w ∧
      cntEq ((i, v) :: (run ++ tail)) w = cntEq tail w := by
  constructor
  · rw [cntLt, List.countP_cons_of_pos _ _ (by simpa using hw), List.countP_append]
    have hr : run.countP (fun p => flt p.2 w) = run.length :=
      List.countP_eq_length.mpr
        (fun p hp => by simpa using flt_of_feq_of_flt (hrun p hp) hw)
    rw [hr, cntLt]
    omega
  · rw [cntEq, List.countP_cons_of_neg, List.countP_append]
    · have hr : run.countP (fun p => feq p.2 w) = 0 := by
        rw [List.countP_eq_zero]
        intro p hp
        simp only [Bool.not_eq_true]
        cases hc : feq p.2 w
        · rfl
        · exact absurd (feq_trans (feq_symm (hrun p hp)) hc)
            (by simp [not_feq_of_flt hw])
      rw [hr, cntEq]
      omega
    · simp [not_feq_of_flt hw]

theorem dropWhile_gt {v : FloatV} (hv : v ≠ .nan) :
    ∀ {l : List (Nat × FloatV)}, l.Pairwise fleP → (∀ p ∈ l, p.2 ≠ .nan) →
      (∀ p ∈ l, fle v p.2 = true) →
      ∀ p ∈ l.dropWhile (fun p => feq p.2 v), flt v p.2 = true := by
  intro l
  induction l with
  | nil =>
    intro _ _ _ p hp
    simp [List.dropWhile] at hp
  | cons q l ih =>
    intro hpw hnn hge p hp
    by_cases hq : feq q.2 v = true
    · simp only [List.dropWhile_cons, hq, if_true] at hp
      exact ih (List.pairwise_cons.mp hpw).2
        (fun r hr => hnn r (List.mem_cons_of_mem q hr))
        (fun r hr => hge r (List.mem_cons_of_mem q hr)) p hp
    · simp only [List.dropWhile_cons, hq, if_false] at hp
      have hq' : feq v q.2 = false := by
        cases hc : feq v q.2
        · rfl
        · exact absurd (feq_symm hc) hq
      have hqv : flt v q.2 = true :=
        flt_of_fle_of_not_feq (hge q (List.mem_cons_self q l)) hq'
      rcases List.mem_cons.mp hp with rfl | hp'
      · exact hqv
      · exact flt_of_flt_of_fle hqv ((List.pairwise_cons.mp hpw).1 p hp')

theorem assignRanksAux_eq_map (method : RankMethod) :
    ∀ (fuel : Nat) (l : List (Nat × FloatV)) (k : Nat), l.length ≤ fuel →
      l.Pairwise fleP → (∀ p ∈ l, p.2 ≠ .nan) →
      assignRanksAux method fuel k l =
        l.map (fun p => (p.1, rankAssign l method k p.2)) := by
  intro fuel
  induction fuel with
  | zero =>
    intro l k hlen _ _
    have hl : l = [] := List.length_eq_zero.mp (Nat.le_zero.mp hlen)
    subst hl
    rfl
  | succ fuel ih =>
    intro l k hlen hpw hnn
    cases l with
    | nil => rfl
    | cons hd rest =>
      obtain ⟨i, v⟩ := hd
      have hv : v ≠ .nan := hnn (i, v) (List.mem_cons_self _ _)
      have hpc := List.pairwise_cons.mp hpw
      have hge : ∀ p ∈ rest, fle v p.2 = true := fun p hp => hpc.1 p hp
      have hrest_pw : rest.Pairwise fleP := hpc.2
      have hrest_nn : ∀ p ∈ rest, p.2 ≠ .nan := fun p hp =>
        hnn p (List.mem_cons_of_mem _ hp)
      have hrun : ∀ p ∈ rest.takeWhile (fun p => feq p.2 v), feq p.2 v = true := by
        intro p hp
        have h := List.mem_takeWhile_imp hp
        simpa using h
      have htail_gt : ∀ p ∈ rest.dropWhile (fun p => feq p.2 v), flt v p.2 = true :=
        dropWhile_gt hv hrest_pw hrest_nn hge
      have hsplit :
          rest.takeWhile (fun p => feq p.2 v) ++ rest.dropWhile (fun p => feq p.2 v) =
            rest := by
        simp
      have htail_pw : (rest.dropWhile (fun p => feq p.2 v)).Pairwise fleP :=
        List.Pairwise.sublist (List.dropWhile_sublist _) hrest_pw
      have htail_nn : ∀ p ∈ rest.dropWhile (fun p => feq p.2 v), p.2 ≠ .nan :=
        fun p hp => hrest_nn p ((List.dropWhile_sublist _).subset hp)
      have htail_len : (rest.dropWhile (fun p => feq p.2 v)).length ≤ fuel := by
        have h1 : (rest.dropWhile (fun p => feq p.2 v)).length ≤ rest.length :=
          (List.dropWhile_sublist _).length_le
        simp only [List.length_cons] at hlen
        omega
      have hcounts :=
        @counts_head_group i v (rest.takeWhile (fun p => feq p.2 v))
          (rest.dropWhile (fun p => feq p.2 v)) hv hrun htail_gt
      simp only [assignRanksAux]
      rw [ih _ _ htail_len htail_pw htail_nn]
      conv_rhs => rw [← hsplit]
      rw [List.map_cons, List.map_cons, List.map_append, List.cons_append]
      congr 1
      · have h0 := hcounts.1
        have h1 := hcounts.2
        cases method <;>
          simp only [rankAssign, h0, h1, Prod.mk.injEq, eq_self_iff_true, true_and] <;> omega
      · congr 1
        · apply List.map_congr_left
          intro p hp
          have hc1 := @cntLt_congr ((i, v) :: (rest.takeWhile (fun p => feq p.2 v) ++
            rest.dropWhile (fun p => feq p.2 v))) p.2 v (hrun p hp)
          have hc2 := @cntEq_congr ((i, v) :: (rest.takeWhile (fun p => feq p.2 v) ++
            rest.dropWhile (fun p => feq p.2 v))) p.2 v (hrun p hp)
          have h0 := hcounts.1
          have h1 := hcounts.2
          cases method <;>
            simp only [rankAssign, hc1, hc2, h0, h1, Prod.mk.injEq, eq_self_iff_true,
              true_and] <;> omega
        · apply List.map_congr_left
          intro p hp
          have hct := @counts_tail i v p.2 (rest.takeWhile (fun p => feq p.2 v))
            (rest.dropWhile (fun p => feq p.2 v)) hrun (htail_gt p hp)
          have h0 := hct.1
          have h1 := hct.2
          cases method <;>
            simp only [rankAssign, h0, h1, Prod.mk.injEq, eq_self_iff_true, true_and] <;>
              omega

theorem assignRanks_eq_map {l : List (Nat × FloatV)} (method : RankMethod) (k : Nat)
    (hpw : l.Pairwise fleP) (hnn : ∀ p ∈ l, p.2 ≠ .nan) :
    assignRanks method k l = l.map (fun p => (p.1, rankAssign l method k p.2)) :=
  assignRanksAux_eq_map method l.length l k le_rfl hpw hnn

theorem rankAssign_perm {l₁ l₂ : List (Nat × FloatV)} (h : List.Perm l₁ l₂)
    (method : RankMethod) (k : Nat) (v : FloatV) :
    rankAssign l₁ method k v = rankAssign l₂ method k v := by
  have h1 : cntLt l₁ v = cntLt l₂ v := h.countP_eq _
  have h2 : cntEq l₁ v = cntEq l₂ v := h.countP_eq _
  cases method <;> simp [rankAssign, h1, h2]

theorem rankAssign_le {l : List (Nat × FloatV)} (method : RankMethod) (k : Nat)
    (v : FloatV) : k ≤ rankAssign l method k v := by
  cases method <;> simp [rankAssign] <;> omega

theorem map_fst_map_formula {α β γ : Type} (l : List (α × β)) (f : α × β → γ) :
    (l.map (fun p => (p.1, f p))).map Prod.fst = l.map Prod.fst := by
  rw [List.map_map]
  rfl

theorem writeBack_perm {l₁ l₂ : List (Nat × Nat)} (h : List.Perm l₁ l₂)
    (hnd : (l₁.map Prod.fst).Nodup) (n : Nat) : writeBack l₁ n = writeBack l₂ n := by
  unfold writeBack
  exact List.map_congr_left (fun j _ => by rw [find?_perm_of_nodup_keys h hnd j])

theorem sorted_writeBack_eq (xs : List FloatV) (method : RankMethod)
    {l : List (Nat × FloatV)} (hperm : List.Perm l (comparables xs))
    (hsort : l.Pairwise fleP) (n : Nat) :
    writeBack (assignRanks method 1 l) n =
      writeBack ((comparables xs).map
        (fun p => (p.1, rankAssign (comparables xs) method 1 p.2))) n := by
  have hnn : ∀ p ∈ l, p.2 ≠ .nan := fun p hp => comparables_nonnan p (hperm.mem_iff.mp hp)
  rw [assignRanks_eq_map method 1 hsort hnn]
  have hcong : l.map (fun p => (p.1, rankAssign l method 1 p.2)) =
      l.map (fun p => (p.1, rankAssign (comparables xs) method 1 p.2)) :=
    List.map_congr_left (fun p _ => by rw [rankAssign_perm hperm])
  rw [hcong]
  apply writeBack_perm
    (hperm.map (fun p => (p.1, rankAssign (comparables xs) method 1 p.2)))
  rw [map_fst_map_formula]
  exact ((hperm.map Prod.fst).symm).nodup (comparables_keys_nodup xs)

theorem rank_eq_writeBack_map (xs : List FloatV) (method : RankMethod) :
    rank xs method =
      writeBack ((comparables xs).map
        (fun p => (p.1, rankAssign (comparables xs) method 1 p.2))) xs.length := by
  rw [rank]
  exact sorted_writeBack_eq xs method (sortPairs_perm _)
    (sortPairs_pairwise (fun q hq => comparables_nonnan q hq)) _

theorem rank_length (xs : List FloatV) (method : RankMethod) :
    (rank xs method).length = xs.length := by
  rw [rank, writeBack, List.length_map, List.length_range]

theorem writeBack_getD (assigned : List (Nat × Nat)) (n : Nat) {j : Nat} (hj : j < n) :
    (writeBack assigned n).getD j 0 =
      ((assigned.find? (fun p => p.1 == j)).map Prod.snd).getD 0 := by
  rw [writeBack, List.getD_eq_getD_get?, List.get?_map, List.get?_eq_getElem?,
    List.getElem?_range hj]
  rfl

theorem find?_comparables_of_nan {xs : List FloatV} {j : Nat} (hj : j < xs.length)
    (hnan : xs.get ⟨j, hj⟩ = .nan) :
    (comparables xs).find? (fun p => p.1 == j) = none := by
  rw [List.find?_eq_none]
  intro p hp
  simp only [beq_iff_eq]
  intro hpj
  have hm := mem_comparables.mp hp
  have h1 : xs[p.1]? = some p.2 := List.mem_enum_iff_getElem?.mp hm.1
  rw [hpj] at h1
  rw [List.getElem?_eq_getElem hj] at h1
  have h2 : p.2 = xs.get ⟨j, hj⟩ := by
    have := Option.some.inj h1
    exact this.symm
  exact hm.2 (h2.trans hnan)

theorem find?_comparables_of_not_nan {xs : List FloatV} {j : Nat} (hj : j < xs.length)
    (h : xs.get ⟨j, hj⟩ ≠ .nan) :
    (comparables xs).find? (fun p => p.1 == j) = some (j, xs.get ⟨j, hj⟩) := by
  have hmem : (j, xs.get ⟨j, hj⟩) ∈ comparables xs := by
    rw [mem_comparables]
    refine ⟨List.mem_enum_iff_getElem?.mpr ?_, h⟩
    simp [List.getElem?_eq_getElem hj]
  cases hf : (comparables xs).find? (fun p => p.1 == j) with
  | none =>
    rw [List.find?_eq_none] at hf
    exact absurd (by simp) (hf _ hmem)
  | some q =>
    have hqj : q.1 = j := by simpa using List.find?_some hf
    have hqmem := List.mem_of_find?_eq_some hf
    rw [eq_of_mem_of_nodup_keys (comparables_keys_nodup xs) hqmem hmem hqj]

theorem rank_getD_of_nan {xs : List FloatV} (method : RankMethod) {j : Nat}
    (hj : j < xs.length) (hnan : xs.get ⟨j, hj⟩ = .nan) :
    (rank xs method).getD j 0 = 0 := by
  rw [rank_eq_writeBack_map, writeBack_getD _ _ hj]
  rw [List.find?_map]
  have hnone := find?_comparables_of_nan hj hnan
  have : (comparables xs).find?
      ((fun p => p.1 == j) ∘ fun p => (p.1, rankAssign (comparables xs) method 1 p.2)) =
      (comparables xs).find? (fun p => p.1 == j) := by
    rfl
  rw [this, hnone]
  rfl

theorem rank_getD_of_not_nan {xs : List FloatV} (method : RankMethod) {j : Nat}
    (hj : j < xs.length) (h : xs.get ⟨j, hj⟩ ≠ .nan) :
    (rank xs method).getD j 0 =
      rankAssign (comparables xs) method 1 (xs.get ⟨j, hj⟩) := by
  rw [rank_eq_writeBack_map, writeBack_getD _ _ hj]
  rw [List.find?_map]
  have hsome := find?_comparables_of_not_nan hj h
  have hcomp : (comparables xs).find?
      ((fun p => p.1 == j) ∘ fun p => (p.1, rankAssign (comparables xs) method 1 p.2)) =
      (comparables xs).find? (fun p => p.1 == j) := by
    rfl
  rw [hcomp, hsome]
  rfl

/-! ### Cut points and buckets -/

theorem loopRem_spec (rpb : Nat) :
    ∀ (k low : Nat),
      (loopRem rpb low k).2 = low + k * (rpb + 1) ∧
      (loopRem rpb low k).1.length = k ∧
      List.Pairwise (· < ·) (loopRem rpb low k).1 ∧
      (∀ c ∈ (loopRem rpb low k).1, low ≤ c ∧ c + rpb + 1 ≤ (loopRem rpb low k).2) := by
  intro k
  induction k with
  | zero => intro low; simp [loopRem]
  | succ k ih =>
    intro low
    obtain ⟨h2, hlen, hpw, hmem⟩ := ih (low + rpb + 1)
    simp only [loopRem]
    refine ⟨?_, ?_, ?_, ?_⟩
    · rw [h2, Nat.succ_mul]; omega
    · simp [hlen]
    · rw [List.pairwise_cons]
      exact ⟨fun c hc => by have := (hmem c hc).1; omega, hpw⟩
    · intro c hc
      rcases List.mem_cons.mp hc with rfl | hc'
      · refine ⟨le_refl _, ?_⟩
        rw [h2]; omega
      · have := hmem c hc'
        omega

theorem loopRest_spec (rpb : Nat) (hrpb : 1 ≤ rpb) :
    ∀ (k low : Nat), 1 ≤ low →
      (loopRest rpb low k).2 = low + k * rpb ∧
      (loopRest rpb low k).1.length = k ∧
      List.Pairwise (· < ·) (loopRest rpb low k).1 ∧
      (∀ c ∈ (loopRest rpb low k).1, low ≤ c ∧ c + rpb ≤ (loopRest rpb low k).2) := by
  intro k
  induction k with
  | zero => intro low _; simp [loopRest]
  | succ k ih =>
    intro low hlow
    have hstep : low + rpb - 1 + 1 = low + rpb := by omega
    obtain ⟨h2, hlen, hpw, hmem⟩ := ih (low + rpb - 1 + 1) (by omega)
    simp only [loopRest]
    refine ⟨?_, ?_, ?_, ?_⟩
    · rw [h2, hstep, Nat.succ_mul]; omega
    · simp [hlen]
    · rw [List.pairwise_cons]
      exact ⟨fun c hc => by have := (hmem c hc).1; omega, hpw⟩
    · intro c hc
      rcases List.mem_cons.mp hc with rfl | hc'
      · refine ⟨le_refl _, ?_⟩
        rw [h2]; omega
      · have := hmem c hc'
        omega

theorem loopRest_range_one (rpb : Nat) (hrpb : rpb = 1) :
    ∀ (k low : Nat), 1 ≤ low → (loopRest rpb low k).1 = List.range' low k 1 := by
  subst hrpb
  intro k
  induction k with
  | zero => intro low _; simp [loopRest]
  | succ k ih =>
    intro low hlow
    have hstep : low + 1 - 1 + 1 = low + 1 := by omega
    simp only [loopRest, List.range']
    rw [hstep] at *
    rw [ih (low + 1) (by omega)]

theorem bucketOf_mono (cuts : List Nat) {x y : Nat} (h : x ≤ y) :
    bucketOf cuts x ≤ bucketOf cuts y := by
  induction cuts with
  | nil => simp [bucketOf]
  | cons c cs ih =>
    by_cases hc : c ≤ x
    · have hcy : c ≤ y := le_trans hc h
      simp only [bucketOf, List.takeWhile_cons, decide_eq_true hc, decide_eq_true hcy,
        if_true, List.length_cons]
      exact Nat.succ_le_succ ih
    · simp only [bucketOf, List.takeWhile_cons]
      rw [decide_eq_false hc]
      simp only [Bool.false_eq_true, if_false, List.length_nil]
      exact Nat.zero_le _

theorem bucketOf_le_length (cuts : List Nat) (x : Nat) :
    bucketOf cuts x ≤ cuts.length :=
  (List.takeWhile_sublist _).length_le

theorem takeWhile_eq_nil_of_head_false {cs : List Nat} {x : Nat}
    (h : ∀ d ∈ cs, ¬ d ≤ x) : cs.takeWhile (fun cut => decide (cut ≤ x)) = [] := by
  cases cs with
  | nil => rfl
  | cons d cs =>
    rw [List.takeWhile_cons, decide_eq_false (h d (List.mem_cons_self _ _))]
    simp

theorem bucketOf_get_of_pairwise {cuts : List Nat} (h : List.Pairwise (· < ·) cuts)
    {m : Nat} (hm : m < cuts.length) :
    bucketOf cuts (cuts.get ⟨m, hm⟩) = m + 1 := by
  induction cuts generalizing m with
  | nil => cases hm
  | cons c cs ih =>
    rw [List.pairwise_cons] at h
    cases m with
    | zero =>
      simp only [List.get]
      rw [bucketOf, List.takeWhile_cons, decide_eq_true (le_refl c)]
      simp only [if_true, List.length_cons]
      rw [takeWhile_eq_nil_of_head_false (fun d hd => by have := h.1 d hd; omega)]
      rfl
    | succ m =>
      simp only [List.get]
      have hx : c ≤ cs.get ⟨m, Nat.lt_of_succ_lt_succ hm⟩ := by
        have h1 := h.1 _ (cs.get_mem m (Nat.lt_of_succ_lt_succ hm))
        omega
      rw [bucketOf, List.takeWhile_cons, decide_eq_true hx]
      simp only [if_true, List.length_cons]
      rw [← bucketOf]
      rw [ih h.2 (Nat.lt_of_succ_lt_succ hm)]

/-- Structural facts about the cut points the source computes: `ranksPerBucket`
is at least 1, there are exactly `effectiveBuckets` cut points, they are
strictly increasing, each lies in `[1, maxRank]`, and the effective bucket
count is in `[1, maxRank]`. -/
theorem bucketPlan_spec {maxRank buckets be rpb : Nat} {cuts : List Nat}
    (h : bucketPlan maxRank buckets = some (be, rpb, cuts)) :
    1 ≤ rpb ∧ cuts.length = be ∧ List.Pairwise (· < ·) cuts ∧
      (∀ c ∈ cuts, 1 ≤ c ∧ c ≤ maxRank) ∧ 1 ≤ be ∧ be ≤ maxRank := by
  unfold bucketPlan at h
  by_cases hb : buckets = 0
  · rw [if_pos hb] at h; cases h
  rw [if_neg hb] at h
  simp only [] at h
  by_cases hedge : maxRank / buckets = 0
  · rw [if_pos hedge, if_pos hedge] at h
    by_cases hz : maxRank = 0
    · rw [if_pos hz] at h; cases h
    rw [if_neg hz] at h
    simp only [Option.some.injEq, Prod.mk.injEq] at h
    obtain ⟨hbe, hrpb, hcuts⟩ := h
    subst hbe; subst hrpb
    rw [Nat.mod_self] at hcuts
    obtain ⟨hr2, hrlen, hrpw, hrmem⟩ := loopRem_spec 1 0 1
    obtain ⟨ht2, htlen, htpw, htmem⟩ :=
      loopRest_spec 1 le_rfl (maxRank - 0) ((loopRem 1 1 0).2) (by simp [loopRem])
    refine ⟨le_rfl, ?_, ?_, ?_, by omega, by omega⟩
    · rw [← hcuts, List.length_append, hrlen, htlen]; omega
    · rw [← hcuts]
      rw [List.pairwise_append]
      refine ⟨hrpw, htpw, ?_⟩
      intro a ha
      simp [loopRem] at ha
    · intro c hc
      rw [← hcuts, List.mem_append] at hc
      rcases hc with hc | hc
      · simp [loopRem] at hc
      · have h1 := htmem c hc
        rw [ht2, hr2] at h1
        omega
  · rw [if_neg hedge, if_neg hedge] at h
    rw [if_neg hb] at h
    simp only [Option.some.injEq, Prod.mk.injEq] at h
    obtain ⟨hbe, hrpb, hcuts⟩ := h
    subst hbe; subst hrpb
    have hrpb1 : 1 ≤ maxRank / buckets := Nat.one_le_iff_ne_zero.mpr hedge
    have hmod : maxRank % buckets < buckets := Nat.mod_lt _ (by omega)
    have hdm : buckets * (maxRank / buckets) + maxRank % buckets = maxRank :=
      Nat.div_add_mod maxRank buckets
    obtain ⟨hr2, hrlen, hrpw, hrmem⟩ :=
      loopRem_spec (maxRank / buckets) (maxRank % buckets) 1
    obtain ⟨ht2, htlen, htpw, htmem⟩ :=
      loopRest_spec (maxRank / buckets) hrpb1 (buckets - maxRank % buckets)
        ((loopRem (maxRank / buckets) 1 (maxRank % buckets)).2) (by rw [hr2]; omega)
    have he1 : (maxRank % buckets) * (maxRank / buckets + 1) =
        (maxRank % buckets) * (maxRank / buckets) + maxRank % buckets := by
      ring
    have he2 : (buckets - maxRank % buckets) * (maxRank / buckets) =
        buckets * (maxRank / buckets) - (maxRank % buckets) * (maxRank / buckets) :=
      Nat.sub_mul _ _ _
    have hle : (maxRank % buckets) * (maxRank / buckets) ≤
        buckets * (maxRank / buckets) :=
      Nat.mul_le_mul_right _ (le_of_lt hmod)
    have hbound : (loopRest (maxRank / buckets)
        ((loopRem (maxRank / buckets) 1 (maxRank % buckets)).2)
        (buckets - maxRank % buckets)).2 = 1 + maxRank := by
      rw [ht2, hr2]
      omega
    have hble : buckets ≤ maxRank := (Nat.one_le_div_iff (by omega)).mp hrpb1
    refine ⟨hrpb1, ?_, ?_, ?_, by omega, by omega⟩
    · rw [← hcuts, List.length_append, hrlen, htlen]; omega
    · rw [← hcuts, List.pairwise_append]
      refine ⟨hrpw, htpw, ?_⟩
      intro a ha b hb
      have h1 := (hrmem a ha).2
      have h2 := (htmem b hb).1
      omega
    · intro c hc
      rw [← hcuts, List.mem_append] at hc
      have hmid : (loopRem (maxRank / buckets) 1 (maxRank % buckets)).2 ≤ 1 + maxRank := by
        have h1 := ht2
        rw [hbound] at h1
        omega
      rcases hc with hc | hc
      · have h1 := hrmem c hc
        omega
      · have h1 := htmem c hc
        rw [hbound] at h1
        rw [hr2] at h1
        omega

/-! ### Remaining support lemmas -/

theorem reduceMax_eq_none_iff (l : List Nat) : reduceMax l = none ↔ l = [] := by
  cases l <;> simp [reduceMax]

theorem getD_map_of_lt {α β : Type} {l : List α} {f : α → β} {i : Nat}
    (hi : i < l.length) (d : β) :
    (l.map f).getD i d = f (l.get ⟨i, hi⟩) := by
  rw [List.getD_eq_getElem?_getD, List.getElem?_map, List.getElem?_eq_getElem hi]
  rfl

theorem getD_zipWith_of_lt {α : Type} {f : α → α → α} {a b : List α} {i : Nat}
    (hia : i < a.length) (hib : i < b.length) (d : α) :
    (List.zipWith f a b).getD i d = f (a.get ⟨i, hia⟩) (b.get ⟨i, hib⟩) := by
  have hlen : i < (List.zipWith f a b).length := by
    rw [List.length_zipWith]
    omega
  rw [List.getD_eq_getElem?_getD, List.getElem?_eq_getElem hlen]
  rw [List.getElem_zipWith]
  rfl

theorem countNonFinite_eq_countP (xs : List FloatV) :
    countNonFinite xs = xs.countP (fun x => !(isFinite x)) := by
  have h : ∀ (l : List FloatV) (a : Nat),
      l.foldl (fun a b => a + if !(isFinite b) then 1 else 0) a =
        a + l.countP (fun x => !(isFinite x)) := by
    intro l
    induction l with
    | nil => intro a; simp
    | cons x l ih =>
      intro a
      rw [List.foldl_cons, ih, List.countP_cons]
      by_cases hx : isFinite x <;> simp [hx] <;> omega
  rw [countNonFinite, h]
  omega

theorem flt_eq_false_of_pcmp_none {a b : FloatV} (h : pcmp a b = none) :
    flt a b = false := by
  simp [flt, h]

theorem fgt_eq_false_of_pcmp_none {a b : FloatV} (h : pcmp a b = none) :
    fgt a b = false := by
  simp [fgt, h]

theorem getD_map_nat {l : List Nat} {f : Nat → Nat} {i : Nat} (hi : i < l.length) :
    (l.map f).getD i 0 = f (l.getD i 0) := by
  rw [List.getD_eq_getElem?_getD, List.getElem?_map, List.getElem?_eq_getElem hi,
    List.getD_eq_getElem?_getD, List.getElem?_eq_getElem hi]
  rfl

/-! ### The claims -/

/-- C1: the spec claims that for a non-empty container with no comparable
elements (all NaN) and any requested bucket count at least 1, `discretize`
returns the all-zero output unchanged.  On the code this is wrong: the rank
output is all-zero, so `max_rank = 0`, the edge case reduces the effective
bucket count to `max_rank = 0`, and `max_rank % 0` is a remainder-by-zero
fault (a panic in the source), modelled here by `none`.  At the failing
input `[NaN]` with one requested bucket the code faults instead of
returning `[0]`. -/
theorem c1_all_nan_discretize_faults :
    rank [FloatV.nan] .Minimum = [0] ∧
      reduceMax (rank [FloatV.nan] .Minimum) = some 0 ∧
      discretize? [FloatV.nan] .Minimum 1 = none := by
  refine ⟨by decide, by decide, by decide⟩

/-- C3 counterexample: the claim (and the spec) say that for `[4,2,2,1]` the
Average method returns `[4,2,2,2]`; the code returns `[4,2,2,1]` — the
untied value 1 keeps rank 1, only the tie-group `{2,2}` receives the floor
average 2 of ranks {2,3}.  (The spec's `[4,2,2,2]` is the Average output for
the input `[4,1,1,1]`, which is what the source's own test uses.) -/
theorem c3_counterexample :
    ¬ rank [FloatV.fin 4, FloatV.fin 2, FloatV.fin 2, FloatV.fin 1] .Average =
      [4, 2, 2, 2] := by
  decide

/-- C3 (amended): for the one-dimensional input [4,2,2,1], `rank` returns
[4,2,2,1] under Minimum, [4,3,3,1] under Maximum, and [4,2,2,1] under
Average (the tie-group {2,2} at ranks {2,3} gets the integer floor average
2; the untied value 1 keeps rank 1). -/
theorem c3_rank_examples :
    rank [FloatV.fin 4, FloatV.fin 2, FloatV.fin 2, FloatV.fin 1] .Minimum =
        [4, 2, 2, 1] ∧
      rank [FloatV.fin 4, FloatV.fin 2, FloatV.fin 2, FloatV.fin 1] .Maximum =
        [4, 3, 3, 1] ∧
      rank [FloatV.fin 4, FloatV.fin 2, FloatV.fin 2, FloatV.fin 1] .Average =
        [4, 2, 2, 1] := by
  refine ⟨by decide, by decide, by decide⟩

/-- C4 counterexample: the claim says every bucket id in
`[1, effective_buckets]` is attained by at least one element of the
discretize output when `max_rank ≥ effective_buckets`.  For the container
`[5,5,7]` under Minimum with 3 requested buckets, `max_rank = 3`, the
effective bucket count is 3 and the cut points are [1,2,3], but the ranks
present are only {1,3}, so bucket 2 appears nowhere in the output
`[1,1,3]`. -/
theorem c4_counterexample :
    discretize? [FloatV.fin 5, FloatV.fin 5, FloatV.fin 7] .Minimum 3 =
        some [1, 1, 3] ∧
      reduceMax (rank [FloatV.fin 5, FloatV.fin 5, FloatV.fin 7] .Minimum) = some 3 ∧
      bucketPlan 3 3 = some (3, 1, [1, 2, 3]) ∧
      ¬ (2 ∈ ([1, 1, 3] : List Nat)) := by
  refine ⟨by decide, by decide, by decide, by decide⟩

/-- C4 (amended): every bucket id in `[1, effective_buckets]` is attained by
at least one rank VALUE in `[1, max_rank]` — no bucket's rank interval is
empty — whenever the code computes a bucket plan and
`max_rank ≥ effective_buckets`.  (A bucket need not be attained by an
element: tie-breaking can skip rank values, as the counterexample shows.) -/
theorem c4_no_empty_bucket_ranges {maxRank buckets be rpb : Nat} {cuts : List Nat}
    (hplan : bucketPlan maxRank buckets = some (be, rpb, cuts))
    (hge : be ≤ maxRank) {k : Nat} (hk1 : 1 ≤ k) (hk2 : k ≤ be) :
    ∃ x, 1 ≤ x ∧ x ≤ maxRank ∧ bucketOf cuts x = k := by
  obtain ⟨hrpb, hlen, hpw, hmem, hbe1, hbe2⟩ := bucketPlan_spec hplan
  have hklt : k - 1 < cuts.length := by omega
  refine ⟨cuts.get ⟨k - 1, hklt⟩, ?_, ?_, ?_⟩
  · exact (hmem _ (cuts.get_mem _ _)).1
  · exact (hmem _ (cuts.get_mem _ _)).2
  · rw [bucketOf_get_of_pairwise hpw hklt]
    omega

/-- C4 witness: the amended theorem applied at `max_rank = 5`, 2 buckets
(cut points [1,4]), bucket id 2, attained by rank value 4. -/
theorem c4_no_empty_bucket_ranges_witness :
    bucketPlan 5 2 = some (2, 2, [1, 4]) ∧ 2 ≤ 5 ∧ 1 ≤ 2 ∧ 2 ≤ 2 ∧
      (∃ x, 1 ≤ x ∧ x ≤ 5 ∧ bucketOf [1, 4] x = 2) :=
  ⟨by decide, by decide, by decide, by decide,
    @c4_no_empty_bucket_ranges 5 2 2 2 [1, 4] (by decide) (by decide) 2
      (by decide) (by decide)⟩

/-- C8: the output of `rank` is the output of the reference algorithm for
ANY value-sorted arrangement of the comparable pairs — in particular the
stable one — so the relative order the sort gives to equal values never
affects the output. -/
theorem c8_rank_sort_independent (xs : List FloatV) (method : RankMethod)
    {l : List (Nat × FloatV)} (hperm : List.Perm l (comparables xs))
    (hsort : l.Pairwise fleP) :
    writeBack (assignRanks method 1 l) xs.length = rank xs method := by
  rw [rank_eq_writeBack_map]
  exact sorted_writeBack_eq xs method hperm hsort xs.length

/-- C8 witness: for the container `[1.0, 1.0]` the reversed tie order
`[(1,1),(0,1)]` is a sorted permutation of the comparable pairs and yields
the same rank output. -/
theorem c8_rank_sort_independent_witness :
    List.Perm [(1, FloatV.fin 1), (0, FloatV.fin 1)]
        (comparables [FloatV.fin 1, FloatV.fin 1]) ∧
      List.Pairwise fleP [(1, FloatV.fin 1), (0, FloatV.fin 1)] ∧
      writeBack (assignRanks .Minimum 1 [(1, FloatV.fin 1), (0, FloatV.fin 1)]) 2 =
        rank [FloatV.fin 1, FloatV.fin 1] .Minimum :=
  ⟨by decide, by decide,
    c8_rank_sort_independent [FloatV.fin 1, FloatV.fin 1] .Minimum
      (by decide) (by decide)⟩

/-- C10: the filter against the default reference value removes exactly the
NaN elements, and any two retained elements are mutually comparable, so the
`unwrap` in the sort comparator can never fail on the pairs the sort
compares. -/
theorem c10_comparator_total (xs : List FloatV) :
    (∀ v : FloatV, pcmp v defaultF = none ↔ v = .nan) ∧
      (∀ p ∈ comparables xs, p.2 ≠ .nan) ∧
      (∀ p ∈ comparables xs, ∀ q ∈ comparables xs, (pcmp p.2 q.2).isSome = true) := by
  refine ⟨pcmp_default_none_iff, comparables_nonnan, ?_⟩
  intro p hp q hq
  rw [pcmp_isSome_iff]
  exact ⟨comparables_nonnan p hp, comparables_nonnan q hq⟩

/-- C10 witness: two retained pairs of a concrete container are mutually
comparable. -/
theorem c10_comparator_total_witness :
    (0, FloatV.fin 1) ∈ comparables [FloatV.fin 1, FloatV.fin 2] ∧
      (1, FloatV.fin 2) ∈ comparables [FloatV.fin 1, FloatV.fin 2] ∧
      (pcmp (FloatV.fin 1) (FloatV.fin 2)).isSome = true :=
  ⟨by decide, by decide,
    (c10_comparator_total [FloatV.fin 1, FloatV.fin 2]).2.2
      (0, FloatV.fin 1) (by decide) (1, FloatV.fin 2) (by decide)⟩

/-- C2 counterexample: the claim says the remainder is `max_rank` mod the
ORIGINAL requested bucket count.  For ranks {1,2} (container [1.0, 2.0])
with 3 requested buckets the edge case applies; the source computes the
remainder with the reduced effective count (2 % 2 = 0, cut points [1,2],
output [1,2]), while the claim's remainder 2 % 3 = 2 would give cut points
[1,3] and output [1,1]. -/
theorem c2_counterexample :
    discretize? [FloatV.fin 1, FloatV.fin 2] .Minimum 3 = some [1, 2] ∧
      discretizeSpecC2? [FloatV.fin 1, FloatV.fin 2] .Minimum 3 = some [1, 1] ∧
      bucketPlan 2 3 = some (2, 1, [1, 2]) ∧
      bucketPlanSpecC2 2 3 = some (2, 1, [1, 3]) ∧
      ¬ discretize? [FloatV.fin 1, FloatV.fin 2] .Minimum 3 =
          discretizeSpecC2? [FloatV.fin 1, FloatV.fin 2] .Minimum 3 := by
  refine ⟨by decide, by decide, by decide, by decide, by decide⟩

/-- C2 (amended): the remainder is computed with the bucket count AFTER the
edge-case reduction (the shadowed variable), not the original request.
When the edge case applies the remainder is `max_rank % max_rank = 0` and
the cut points are 1, 2, ..., max_rank: one bucket per rank value. -/
theorem c2_remainder_uses_reduced_count {maxRank buckets : Nat}
    (hb : 1 ≤ buckets) (hm : 1 ≤ maxRank) (hedge : maxRank / buckets = 0) :
    bucketPlan maxRank buckets = some (maxRank, 1, List.range' 1 maxRank 1) := by
  have hb0 : ¬ buckets = 0 := by omega
  have hm0 : ¬ maxRank = 0 := by omega
  simp only [bucketPlan, hedge, if_neg hb0]
  simp only [eq_self_iff_true, if_true, if_neg hm0]
  rw [Nat.mod_self]
  simp only [loopRem, Nat.sub_zero, List.nil_append]
  rw [loopRest_range_one 1 rfl maxRank 1 le_rfl]

/-- C2 witness: the amended theorem at `max_rank = 2`, 3 requested
buckets. -/
theorem c2_remainder_uses_reduced_count_witness :
    (1 ≤ 3 ∧ 1 ≤ 2 ∧ 2 / 3 = 0) ∧
      bucketPlan 2 3 = some (2, 1, List.range' 1 2 1) :=
  ⟨⟨by decide, by decide, by decide⟩,
    @c2_remainder_uses_reduced_count 2 3 (by decide) (by decide) (by decide)⟩

/-- C5: the rank output has the input's length; the sentinel 0 appears
exactly at the non-comparable (NaN) positions, and every other entry is a
rank of at least 1 — 0 is never a legitimately assigned rank. -/
theorem c5_rank_sentinel (xs : List FloatV) (method : RankMethod) :
    (rank xs method).length = xs.length ∧
      ∀ i (hi : i < xs.length),
        ((rank xs method).getD i 0 = 0 ↔ xs.get ⟨i, hi⟩ = .nan) ∧
        (xs.get ⟨i, hi⟩ ≠ .nan → 1 ≤ (rank xs method).getD i 0) := by
  refine ⟨rank_length xs method, ?_⟩
  intro i hi
  by_cases hn : xs.get ⟨i, hi⟩ = .nan
  · rw [rank_getD_of_nan method hi hn]
    exact ⟨⟨fun _ => hn, fun _ => rfl⟩, fun h => absurd hn h⟩
  · rw [rank_getD_of_not_nan method hi hn]
    have hge := @rankAssign_le (comparables xs) method 1 (xs.get ⟨i, hi⟩)
    exact ⟨⟨fun h0 => absurd h0 (by omega), fun h => absurd h hn⟩, fun _ => hge⟩

/-- C5 witness: the theorem at the container [5.0, NaN], position 1. -/
theorem c5_rank_sentinel_witness :
    (1 : Nat) < 2 ∧
      ((rank [FloatV.fin 5, FloatV.nan] .Minimum).getD 1 0 = 0 ↔
        [FloatV.fin 5, FloatV.nan].get ⟨1, by decide⟩ = .nan) :=
  ⟨by decide,
    ((c5_rank_sentinel [FloatV.fin 5, FloatV.nan] .Minimum).2 1 (by decide)).1⟩

/-- C6: the bucket assignment of discretize is monotone in rank: whenever
two positions hold non-sentinel ranks x ≤ y, their bucket ids satisfy
bucket(x) ≤ bucket(y). -/
theorem c6_discretize_monotone {xs : List FloatV} {method : RankMethod}
    {buckets : Nat} {out : List Nat}
    (h : discretize? xs method buckets = some out) {i j : Nat}
    (hi : (rank xs method).getD i 0 ≠ 0) (hj : (rank xs method).getD j 0 ≠ 0)
    (hij : (rank xs method).getD i 0 ≤ (rank xs method).getD j 0) :
    out.getD i 0 ≤ out.getD j 0 := by
  have hibnd : i < (rank xs method).length := by
    by_contra hc
    exact hi (List.getD_eq_default _ _ (le_of_not_lt hc))
  have hjbnd : j < (rank xs method).length := by
    by_contra hc
    exact hj (List.getD_eq_default _ _ (le_of_not_lt hc))
  unfold discretize? at h
  cases hmax : reduceMax (rank xs method) with
  | none =>
    simp only [hmax] at h
    obtain rfl : rank xs method = out := Option.some.inj h
    exact hij
  | some maxRank =>
    simp only [hmax] at h
    cases hplan : bucketPlan maxRank buckets with
    | none =>
      simp only [hplan] at h
      exact Option.noConfusion h
    | some plan =>
      obtain ⟨be, rpb, cuts⟩ := plan
      simp only [hplan] at h
      obtain rfl : (rank xs method).map
          (fun x => if x = 0 then 0 else bucketOf cuts x) = out :=
        Option.some.inj h
      rw [getD_map_nat hibnd, getD_map_nat hjbnd, if_neg hi, if_neg hj]
      exact bucketOf_mono cuts hij

/-- C6 witness: the theorem at the container [1.0, 2.0] with one bucket. -/
theorem c6_discretize_monotone_witness :
    discretize? [FloatV.fin 1, FloatV.fin 2] .Minimum 1 = some [1, 1] ∧
      (rank [FloatV.fin 1, FloatV.fin 2] .Minimum).getD 0 0 ≠ 0 ∧
      (rank [FloatV.fin 1, FloatV.fin 2] .Minimum).getD 1 0 ≠ 0 ∧
      (rank [FloatV.fin 1, FloatV.fin 2] .Minimum).getD 0 0 ≤
        (rank [FloatV.fin 1, FloatV.fin 2] .Minimum).getD 1 0 ∧
      ([1, 1] : List Nat).getD 0 0 ≤ ([1, 1] : List Nat).getD 1 0 :=
  ⟨by decide, by decide, by decide, by decide,
    @c6_discretize_monotone [FloatV.fin 1, FloatV.fin 2] .Minimum 1 [1, 1]
      (by decide) 0 1 (by decide) (by decide) (by decide)⟩

/-- C7 counterexample: the claim quantifies over EVERY replacement value;
with the non-finite replacement NaN the count of non-finite values after
the fill is 1, not 0. -/
theorem c7_counterexample :
    ¬ countNonFinite (fillNonFinite [FloatV.nan] FloatV.nan) = 0 := by
  decide

/-- C7 (amended): after the fill every previously non-finite element equals
the replacement and every previously finite element is unchanged, for every
replacement value; and `count_non_finite` becomes 0 provided the
replacement is itself finite. -/
theorem c7_fill_non_finite (xs : List FloatV) (v : FloatV) :
    (fillNonFinite xs v).length = xs.length ∧
      (∀ i (hi : i < xs.length),
        (isFinite (xs.get ⟨i, hi⟩) = false → (fillNonFinite xs v).getD i .nan = v) ∧
        (isFinite (xs.get ⟨i, hi⟩) = true →
          (fillNonFinite xs v).getD i .nan = xs.get ⟨i, hi⟩)) ∧
      (isFinite v = true → countNonFinite (fillNonFinite xs v) = 0) := by
  refine ⟨List.length_map _ _, ?_, ?_⟩
  · intro i hi
    constructor
    · intro hf
      rw [fillNonFinite, getD_map_of_lt hi FloatV.nan, hf]
      simp
    · intro hf
      rw [fillNonFinite, getD_map_of_lt hi FloatV.nan, hf]
      simp
  · intro hv
    rw [countNonFinite_eq_countP, List.countP_eq_zero]
    intro a ha
    rw [fillNonFinite] at ha
    obtain ⟨x, hx, rfl⟩ := List.mem_map.mp ha
    by_cases hfx : isFinite x = true
    · simp [hfx]
    · simp only [Bool.not_eq_true] at hfx
      simp [hfx, hv]

/-- C7 witness: the amended theorem at the container [NaN] with the finite
replacement 7.0. -/
theorem c7_fill_non_finite_witness :
    (0 : Nat) < 1 ∧ isFinite FloatV.nan = false ∧ isFinite (FloatV.fin 7) = true ∧
      (fillNonFinite [FloatV.nan] (FloatV.fin 7)).getD 0 .nan = FloatV.fin 7 ∧
      countNonFinite (fillNonFinite [FloatV.nan] (FloatV.fin 7)) = 0 :=
  ⟨by decide, by decide, by decide,
    ((c7_fill_non_finite [FloatV.nan] (FloatV.fin 7)).2.1 0 (by decide)).1 (by decide),
    (c7_fill_non_finite [FloatV.nan] (FloatV.fin 7)).2.2 (by decide)⟩

/-- C9: at each position of equally-shaped containers,
`maximum_with_inplace` replaces the entry by the other container's exactly
when the entry is strictly less, `minimum_with_inplace` exactly when it is
strictly greater, and an undefined comparison (either side NaN) leaves the
entry unchanged: a NaN already present persists and a NaN in the other
container never overwrites a comparable value. -/
theorem c9_pairwise_minmax (a b : List FloatV) (hlen : a.length = b.length)
    {i : Nat} (hia : i < a.length) (hib : i < b.length) :
    ((flt (a.get ⟨i, hia⟩) (b.get ⟨i, hib⟩) = true →
        (maximumWithInplace a b).getD i .nan = b.get ⟨i, hib⟩) ∧
      (flt (a.get ⟨i, hia⟩) (b.get ⟨i, hib⟩) = false →
        (maximumWithInplace a b).getD i .nan = a.get ⟨i, hia⟩)) ∧
      ((fgt (a.get ⟨i, hia⟩) (b.get ⟨i, hib⟩) = true →
        (minimumWithInplace a b).getD i .nan = b.get ⟨i, hib⟩) ∧
      (fgt (a.get ⟨i, hia⟩) (b.get ⟨i, hib⟩) = false →
        (minimumWithInplace a b).getD i .nan = a.get ⟨i, hia⟩)) ∧
      (pcmp (a.get ⟨i, hia⟩) (b.get ⟨i, hib⟩) = none →
        (maximumWithInplace a b).getD i .nan = a.get ⟨i, hia⟩ ∧
        (minimumWithInplace a b).getD i .nan = a.get ⟨i, hia⟩) := by
  have hmax : (maximumWithInplace a b).getD i .nan =
      (if flt (a.get ⟨i, hia⟩) (b.get ⟨i, hib⟩) then b.get ⟨i, hib⟩
        else a.get ⟨i, hia⟩) := by
    rw [maximumWithInplace, getD_zipWith_of_lt hia hib]
  have hmin : (minimumWithInplace a b).getD i .nan =
      (if fgt (a.get ⟨i, hia⟩) (b.get ⟨i, hib⟩) then b.get ⟨i, hib⟩
        else a.get ⟨i, hia⟩) := by
    rw [minimumWithInplace, getD_zipWith_of_lt hia hib]
  refine ⟨⟨?_, ?_⟩, ⟨?_, ?_⟩, ?_⟩
  · intro h
    rw [hmax, if_pos h]
  · intro h
    rw [hmax, if_neg (by rw [h]; exact Bool.false_ne_true)]
  · intro h
    rw [hmin, if_pos h]
  · intro h
    rw [hmin, if_neg (by rw [h]; exact Bool.false_ne_true)]
  · intro h
    have h1 := flt_eq_false_of_pcmp_none h
    have h2 := fgt_eq_false_of_pcmp_none h
    exact ⟨by rw [hmax, if_neg (by rw [h1]; exact Bool.false_ne_true)],
      by rw [hmin, if_neg (by rw [h2]; exact Bool.false_ne_true)]⟩

/-- C9 witness: the theorem at a = [NaN], b = [1.0]: the comparison is
undefined and the NaN persists under both operations. -/
theorem c9_pairwise_minmax_witness :
    ([FloatV.nan] : List FloatV).length = ([FloatV.fin 1] : List FloatV).length ∧
      pcmp FloatV.nan (FloatV.fin 1) = none ∧
      (maximumWithInplace [FloatV.nan] [FloatV.fin 1]).getD 0 .nan = FloatV.nan ∧
      (minimumWithInplace [FloatV.nan] [FloatV.fin 1]).getD 0 .nan = FloatV.nan :=
  ⟨by decide, by decide,
    ((c9_pairwise_minmax [FloatV.nan] [FloatV.fin 1] (by decide)
      (by decide) (by decide)).2.2 (by decide)).1,
    ((c9_pairwise_minmax [FloatV.nan] [FloatV.fin 1] (by decide)
      (by decide) (by decide)).2.2 (by decide)).2⟩

end NdUtils
